import Mathlib

/-!
Shallow embedding of the `rules` Go package (file `rules.go`): a declarative
rule engine evaluating field/operator/value conditions combined by AND/OR
logic against a nested string-keyed record.

Modelling choices:
* Go dynamic values (`any`) are a tagged union `Value` over null, booleans,
  the Go numeric types (each integer width kept as a tag, since
  `reflect.DeepEqual` distinguishes them), strings, slices and
  `map[string]any` (as association lists).
* Go floating-point payloads are modelled as rationals (`Rat`), exact for the
  decimal literals the engine compares; float rounding is out of scope.
* A Go `error` is `Option String` carrying the error message; the Go
  multi-value returns `(Result, error)` and `(bool, string, error)` are
  modelled as products, so "a zero Result alongside an error" is statable.
* `context.Context` is taken non-cancelled (`ctx.Err() = nil`), i.e. the
  `Evaluate` entry point with `context.Background()`; the cancellation
  pre-checks in `EvaluateWithContext`/`evalCondition` then never fire.
-/

namespace Rules

/-- Width tag of a Go signed-integer type (`int`, `int8`, ..., `int64`);
`reflect.DeepEqual` distinguishes these types even at equal values. -/
inductive IntW where
  | i | i8 | i16 | i32 | i64
deriving DecidableEq, Repr

/-- Width tag of a Go unsigned-integer type (`uint`, `uint8`, ..., `uint64`). -/
inductive UintW where
  | u | u8 | u16 | u32 | u64
deriving DecidableEq, Repr

/-- Tagged union modelling a Go `any` value as the engine sees it: null,
boolean, numeric (floats as exact rationals), string, slice (`[]any`) and
string-keyed map (`map[string]any`, as an association list). -/
inductive Value where
  | vNull
  | vBool (b : Bool)
  | vFloat64 (x : Rat)
  | vFloat32 (x : Rat)
  | vInt (w : IntW) (n : Int)
  | vUint (w : UintW) (n : Nat)
  | vStr (s : String)
  | vList (xs : List Value)
  | vMap (m : List (String × Value))

/-- Lookup of a string key in a Go map modelled as an association list
(first binding wins; a Go map has no duplicate keys). -/
def mapGet : List (String × Value) → String → Option Value
  | [], _ => none
  | (k, v) :: rest, p => if k = p then some v else mapGet rest p

mutual

/-- Models `reflect.DeepEqual` on the embedded values: equality requires the
same Go dynamic type (tag and, for integers, width), recursing elementwise
into slices and, for maps, requiring equal size and every key of the left map
bound in the right map to a deeply equal value. -/
def deepEqual : Value → Value → Bool
  | Value.vNull, Value.vNull => true
  | Value.vBool a, Value.vBool b => a == b
  | Value.vFloat64 a, Value.vFloat64 b => a == b
  | Value.vFloat32 a, Value.vFloat32 b => a == b
  | Value.vInt w1 a, Value.vInt w2 b => w1 == w2 && a == b
  | Value.vUint w1 a, Value.vUint w2 b => w1 == w2 && a == b
  | Value.vStr a, Value.vStr b => a == b
  | Value.vList xs, Value.vList ys => deepEqualList xs ys
  | Value.vMap xs, Value.vMap ys => xs.length == ys.length && deepEqualMap xs ys
  | _, _ => false

/-- Elementwise `deepEqual` on slices of equal length. -/
def deepEqualList : List Value → List Value → Bool
  | [], [] => true
  | x :: xs, y :: ys => deepEqual x y && deepEqualList xs ys
  | _, _ => false

/-- Every binding of the first map is matched by a deeply equal binding in
the second. -/
def deepEqualMap : List (String × Value) → List (String × Value) → Bool
  | [], _ => true
  | (k, v) :: rest, ys => deepEqualFind k v ys && deepEqualMap rest ys

/-- The key is bound in the map to a value deeply equal to `v`. -/
def deepEqualFind : String → Value → List (String × Value) → Bool
  | _, _, [] => false
  | k, v, (k2, v2) :: ys => if k = k2 then deepEqual v v2 else deepEqualFind k v ys

end

/-- Splits a character list on `.` characters; accumulator holds the current
segment reversed. Models Go `strings.Split(path, ".")`. -/
def splitDotAux : List Char → List Char → List String
  | [], acc => [String.mk acc.reverse]
  | c :: cs, acc =>
    if c = '.' then String.mk acc.reverse :: splitDotAux cs []
    else splitDotAux cs (c :: acc)

/-- Models Go `strings.Split(path, ".")`: the list of `.`-separated segments
(the empty path gives `[""]`, as in Go). -/
def splitDot (s : String) : List String := splitDotAux s.toList []

/-- A Go `map[string]any` record; `none` models a nil map. -/
abbrev Record := Option (List (String × Value))

/-- Descent loop of `getValue`: at each path segment the current value must
be a string-keyed map containing the segment, otherwise resolution fails. -/
def getValueAux : List String → Value → Option Value
  | [], cur => some cur
  | p :: ps, cur =>
    match cur with
    | Value.vMap m =>
      match mapGet m p with
      | some v => getValueAux ps v
      | none => none
    | _ => none

/-- Models `getValue(data, path)` from rules.go: nil data is never found;
otherwise the dot-split path is resolved by nested map lookups. The Go
`(any, bool)` return is modelled as `Option Value`. -/
def getValue (data : Record) (path : String) : Option Value :=
  match data with
  | none => none
  | some m => getValueAux (splitDot path) (Value.vMap m)

/-- Longest leading run of decimal digits of a character list, and the rest. -/
def takeDigits : List Char → List Char × List Char
  | [] => ([], [])
  | c :: cs =>
    if c.isDigit then
      let (d, r) := takeDigits cs
      (c :: d, r)
    else ([], c :: cs)

/-- Numeric value of a list of decimal digit characters. -/
def digitsVal (ds : List Char) : Nat :=
  ds.foldl (fun acc c => acc * 10 + (c.toNat - 48)) 0

/-- Modelled from the Go standard library: `strconv.ParseFloat(x, 64)`
restricted to its decimal forms (optional sign, integer and/or fraction
digits, optional decimal exponent), which is what the spec's
"decimal-parseable strings" refers to. The parsed magnitude is kept exact as
a rational. -/
def parseFloat (s : String) : Option Rat :=
  match s.toList with
  | [] => none
  | cs =>
    let (neg, cs1) :=
      match cs with
      | '-' :: t => (true, t)
      | '+' :: t => (false, t)
      | t => (false, t)
    let (ip, cs2) := takeDigits cs1
    let (fp, cs3) :=
      match cs2 with
      | '.' :: t => takeDigits t
      | t => ([], t)
    if ip.isEmpty && fp.isEmpty then none
    else
      let mant : Rat := (digitsVal ip : Rat) + (digitsVal fp : Rat) / ((10 : Rat) ^ fp.length)
      let mant := if neg then -mant else mant
      match cs3 with
      | [] => some mant
      | e :: t =>
        if e = 'e' ∨ e = 'E' then
          let (eneg, t1) :=
            match t with
            | '-' :: u => (true, u)
            | '+' :: u => (false, u)
            | u => (false, u)
          let (ed, t2) := takeDigits t1
          if ed.isEmpty ∨ ¬ t2.isEmpty then none
          else
            let ev := digitsVal ed
            some (if eneg then mant / (10 : Rat) ^ ev else mant * (10 : Rat) ^ ev)
        else none

/-- Models `toFloat` from rules.go: floats and all integer widths coerce
directly, strings coerce via `strconv.ParseFloat`; booleans, nulls, slices
and maps are rejected. The Go `(float64, bool)` return is an `Option Rat`. -/
def toFloat : Value → Option Rat
  | Value.vFloat64 x => some x
  | Value.vFloat32 x => some x
  | Value.vInt _ n => some (n : Rat)
  | Value.vUint _ n => some (n : Rat)
  | Value.vStr s => parseFloat s
  | _ => none

/-- Models `equal` from rules.go: `reflect.DeepEqual` first, then numeric
comparison when both operands coerce via `toFloat`. -/
def equal (a b : Value) : Bool :=
  if deepEqual a b then true
  else
    match toFloat a, toFloat b with
    | some fa, some fb => decide (fa = fb)
    | _, _ => false

/-- Models `greater` from rules.go. -/
def greater (a b : Value) : Bool × Option String :=
  match toFloat a, toFloat b with
  | some fa, some fb => (decide (fa > fb), none)
  | _, _ => (false, some "type mismatch for >")

/-- Models `greaterOrEqual` from rules.go. -/
def greaterOrEqual (a b : Value) : Bool × Option String :=
  match toFloat a, toFloat b with
  | some fa, some fb => (decide (fa ≥ fb), none)
  | _, _ => (false, some "type mismatch for >=")

/-- Models `less` from rules.go. -/
def less (a b : Value) : Bool × Option String :=
  match toFloat a, toFloat b with
  | some fa, some fb => (decide (fa < fb), none)
  | _, _ => (false, some "type mismatch for <")

/-- Models `lessOrEqual` from rules.go. -/
def lessOrEqual (a b : Value) : Bool × Option String :=
  match toFloat a, toFloat b with
  | some fa, some fb => (decide (fa ≤ fb), none)
  | _, _ => (false, some "type mismatch for <=")

/-- The pattern starts the given character list. -/
def leadsWith : List Char → List Char → Bool
  | [], _ => true
  | _ :: _, [] => false
  | a :: as, b :: bs => a == b && leadsWith as bs

/-- The pattern occurs contiguously somewhere in the character list. Models
Go `strings.Contains` (for valid UTF-8 a byte-level occurrence coincides
with a character-level one). -/
def occursIn (pat : List Char) : List Char → Bool
  | [] => leadsWith pat []
  | c :: rest => leadsWith pat (c :: rest) || occursIn pat rest

/-- Models `contains` from rules.go: both operands must be strings,
otherwise a type-mismatch error. -/
def contains (a b : Value) : Bool × Option String :=
  match a, b with
  | Value.vStr s, Value.vStr search => (occursIn search.toList s.toList, none)
  | _, _ => (false, some "type mismatch for contains")

/-- The early-return search loop of `in`: true on the first slice element
`equal` to `a`. -/
def inList (a : Value) : List Value → Bool
  | [] => false
  | item :: rest => if equal a item then true else inList a rest

/-- Models `in` from rules.go (`in` is a Lean keyword, hence `inOp`): the
right operand must be a slice, otherwise the error "in requires slice
value". -/
def inOp (a b : Value) : Bool × Option String :=
  match b with
  | Value.vList items => (inList a items, none)
  | _ => (false, some "in requires slice value")

/-- Models the `eq` closure registered in `registerDefaults`: never errors. -/
def opEq (a b : Value) : Bool × Option String := (equal a b, none)

/-- Models the `ne` closure registered in `registerDefaults`: never errors. -/
def opNe (a b : Value) : Bool × Option String := (!equal a b, none)

/-- Models the operator map `e.ops` of the default engine built by `New()`
(`registerDefaults`): lookup by operator name. -/
def defaultOps : String → Option (Value → Value → Bool × Option String)
  | "eq" => some opEq
  | "ne" => some opNe
  | "gt" => some greater
  | "gte" => some greaterOrEqual
  | "lt" => some less
  | "lte" => some lessOrEqual
  | "contains" => some contains
  | "in" => some inOp
  | _ => none

/-- Left-pads a digit string with zeros to the given length. -/
def padZeros (s : String) (len : Nat) : String :=
  if s.length < len then String.mk (List.replicate (len - s.length) '0') ++ s else s

/-- Decimal rendering of a rational, modelling Go `fmt` `%v` on a float
value: exact decimal expansion when the denominator divides a power of ten
(always the case for values arising from decimal literals), `num/den`
fallback otherwise. -/
def showRat (q : Rat) : String :=
  if q.den = 1 then toString q.num
  else
    match (List.range 64).find? (fun k => 10 ^ k % q.den == 0) with
    | some k =>
      let scaled : Int := q.num * (((10 ^ k : Nat) / q.den : Nat) : Int)
      let sign := if scaled < 0 then "-" else ""
      let m := scaled.natAbs
      sign ++ toString (m / 10 ^ k) ++ "." ++ padZeros (toString (m % 10 ^ k)) k
    | none => toString q.num ++ "/" ++ toString q.den

/-- Insertion into a key-sorted list of rendered map entries (Go `fmt`
prints map keys in sorted order). -/
def insertEntry (e : String × String) : List (String × String) → List (String × String)
  | [] => [e]
  | f :: fs => if compare e.1 f.1 = Ordering.gt then f :: insertEntry e fs else e :: f :: fs

/-- Insertion sort of rendered map entries by key. -/
def sortEntries : List (String × String) → List (String × String)
  | [] => []
  | e :: es => insertEntry e (sortEntries es)

/-- Rendered map entries, sorted by key and joined as `k:v`. -/
def renderEntries (es : List (String × String)) : List String :=
  (sortEntries es).map (fun e => e.1 ++ ":" ++ e.2)

mutual

/-- Models Go `fmt` `%v` formatting of a dynamic value as used in the
explanation string: `<nil>` for null, `true`/`false`, decimal numbers, raw
strings, space-separated bracketed slices, and `map[k:v ...]` with sorted
keys. -/
def showValue : Value → String
  | Value.vNull => "<nil>"
  | Value.vBool b => if b then "true" else "false"
  | Value.vInt _ n => toString n
  | Value.vUint _ n => toString n
  | Value.vFloat64 q => showRat q
  | Value.vFloat32 q => showRat q
  | Value.vStr s => s
  | Value.vList xs => "[" ++ String.intercalate " " (showValueList xs) ++ "]"
  | Value.vMap m => "map[" ++ String.intercalate " " (renderEntries (showValueEntries m)) ++ "]"

/-- The `%v` renderings of the elements of a slice. -/
def showValueList : List Value → List String
  | [] => []
  | v :: vs => showValue v :: showValueList vs

/-- Map entries with `%v`-rendered values, in declaration order. -/
def showValueEntries : List (String × Value) → List (String × String)
  | [] => []
  | (k, v) :: rest => (k, showValue v) :: showValueEntries rest

end

/-- A single field-operator-value check (`Condition` in rules.go). The
operator is a string, as Go's `Operator` is a string type. -/
structure Condition where
  field : String
  op : String
  value : Value

/-- A declarative rule (`Rule` in rules.go). `logic` is a string, as Go's
`Logic` is a string type; the empty string is the unset default. -/
structure Rule where
  conditions : List Condition
  logic : String

/-- The machine-readable evaluation outcome (`Result` in rules.go); an
absent explanation is the empty string (`omitempty`). -/
structure Result where
  matched : Bool
  explanation : String
deriving DecidableEq, Repr

/-- The per-condition explanation string built by `evalCondition`:
`fmt.Sprintf("%s %s %v → %t", c.Field, c.Op, c.Value, matched)`. -/
def explString (c : Condition) (matched : Bool) : String :=
  c.field ++ " " ++ c.op ++ " " ++ showValue c.value ++ " → " ++
    (if matched then "true" else "false")

/-- Models `evalCondition` on the default engine with a non-cancelled
context: resolve the field (error naming the field if absent), look up the
operator (error naming the operator if unknown), apply it (propagating its
error), else return the outcome and the explanation string. The Go
`(bool, string, error)` return is a triple. -/
def evalCondition (data : Record) (c : Condition) : Bool × String × Option String :=
  match getValue data c.field with
  | none => (false, "", some ("field \"" ++ c.field ++ "\" not found: field not found"))
  | some v =>
    match defaultOps c.op with
    | none => (false, "", some ("unknown operator \"" ++ c.op ++ "\""))
    | some fn =>
      match fn v c.value with
      | (_, some e) => (false, "", some e)
      | (matched, none) => (matched, explString c matched, none)

/-- The AND loop of `EvaluateWithContext`: errors abort with the zero
Result, the first false condition short-circuits with its explanation, and
exhaustion yields "all conditions met". -/
def evalAnd (data : Record) : List Condition → Result × Option String
  | [] => (⟨true, "all conditions met"⟩, none)
  | c :: cs =>
    match evalCondition data c with
    | (_, _, some e) => (⟨false, ""⟩, some e)
    | (matched, expl, none) =>
      if matched then evalAnd data cs else (⟨false, expl⟩, none)

/-- The OR loop of `EvaluateWithContext`: errors abort with the zero Result,
the first true condition short-circuits with its explanation, and exhaustion
yields "no conditions met". -/
def evalOr (data : Record) : List Condition → Result × Option String
  | [] => (⟨false, "no conditions met"⟩, none)
  | c :: cs =>
    match evalCondition data c with
    | (_, _, some e) => (⟨false, ""⟩, some e)
    | (matched, expl, none) =>
      if matched then (⟨true, expl⟩, none) else evalOr data cs

/-- Models `EvaluateWithContext` on the default engine with a non-cancelled
context (equivalently `Evaluate`): empty condition lists match vacuously
with no explanation; empty logic defaults to "and"; the logic "and" runs the
AND loop and every other logic value runs the OR loop. -/
def evaluate (rule : Rule) (data : Record) : Result × Option String :=
  if rule.conditions.isEmpty then (⟨true, ""⟩, none)
  else
    let logic := if rule.logic = "" then "and" else rule.logic
    if logic = "and" then evalAnd data rule.conditions
    else evalOr data rule.conditions

/-- Specification-side path resolution, following the spec's words: the
terminal value is reached when every path segment in turn resolves to an
existing key of a string-keyed mapping. -/
inductive Resolves : Value → List String → Value → Prop where
  | nil (v : Value) : Resolves v [] v
  | cons (m : List (String × Value)) (p : String) (ps : List String) (v w : Value) :
      mapGet m p = some v → Resolves v ps w → Resolves (Value.vMap m) (p :: ps) w

end Rules

namespace Rules

/-! ### Helper lemmas shared by the claim theorems -/

/-- When the condition list is non-empty and the logic is unset or "and",
`evaluate` runs the AND loop. -/
theorem evaluate_eq_evalAnd (rule : Rule) (data : Record)
    (h1 : rule.conditions ≠ [])
    (h2 : rule.logic = "" ∨ rule.logic = "and") :
    evaluate rule data = evalAnd data rule.conditions := by
  have he : rule.conditions.isEmpty = false := by
    cases hc : rule.conditions with
    | nil => exact absurd hc h1
    | cons a l => rfl
  rcases h2 with h | h <;> simp [evaluate, he, h]

/-- When the condition list is non-empty and the logic is neither unset nor
"and", `evaluate` runs the OR loop. -/
theorem evaluate_eq_evalOr (rule : Rule) (data : Record)
    (h1 : rule.conditions ≠ [])
    (h2 : rule.logic ≠ "") (h3 : rule.logic ≠ "and") :
    evaluate rule data = evalOr data rule.conditions := by
  have he : rule.conditions.isEmpty = false := by
    cases hc : rule.conditions with
    | nil => exact absurd hc h1
    | cons a l => rfl
  simp [evaluate, he, h2, h3]

/-- A prefix of conditions that all evaluate to true (without error) is
skipped over by the AND loop. -/
theorem evalAnd_append_of_true (data : Record) (pre rest : List Condition)
    (h : ∀ c ∈ pre, ∃ ex, evalCondition data c = (true, ex, none)) :
    evalAnd data (pre ++ rest) = evalAnd data rest := by
  induction pre with
  | nil => rfl
  | cons c pre ih =>
    obtain ⟨ex, hc⟩ := h c (List.mem_cons_self c pre)
    have hrest := ih (fun c' hc' => h c' (List.mem_cons_of_mem _ hc'))
    simp [evalAnd, hc, hrest]

/-- A prefix of conditions that all evaluate to false (without error) is
skipped over by the OR loop. -/
theorem evalOr_append_of_false (data : Record) (pre rest : List Condition)
    (h : ∀ c ∈ pre, ∃ ex, evalCondition data c = (false, ex, none)) :
    evalOr data (pre ++ rest) = evalOr data rest := by
  induction pre with
  | nil => rfl
  | cons c pre ih =>
    obtain ⟨ex, hc⟩ := h c (List.mem_cons_self c pre)
    have hrest := ih (fun c' hc' => h c' (List.mem_cons_of_mem _ hc'))
    simp [evalOr, hc, hrest]

/-- Whenever the AND loop returns an error, the accompanying Result is the
zero Result. -/
theorem evalAnd_error_zero (data : Record) :
    ∀ (cs : List Condition) (e : String),
      (evalAnd data cs).2 = some e → (evalAnd data cs).1 = ⟨false, ""⟩ := by
  intro cs
  induction cs with
  | nil => intro e h; simp [evalAnd] at h
  | cons c cs ih =>
    intro e h
    rcases hc : evalCondition data c with ⟨m, x, err⟩
    cases err with
    | some e' => simp [evalAnd, hc]
    | none =>
      cases m with
      | true =>
        simp only [evalAnd, hc] at h ⊢
        exact ih e h
      | false => simp [evalAnd, hc] at h

/-- Whenever the OR loop returns an error, the accompanying Result is the
zero Result. -/
theorem evalOr_error_zero (data : Record) :
    ∀ (cs : List Condition) (e : String),
      (evalOr data cs).2 = some e → (evalOr data cs).1 = ⟨false, ""⟩ := by
  intro cs
  induction cs with
  | nil => intro e h; simp [evalOr] at h
  | cons c cs ih =>
    intro e h
    rcases hc : evalCondition data c with ⟨m, x, err⟩
    cases err with
    | some e' => simp [evalOr, hc]
    | none =>
      cases m with
      | false =>
        simp only [evalOr, hc] at h ⊢
        exact ih e h
      | true => simp [evalOr, hc] at h

/-- On a success, the explanation returned by `evalCondition` is exactly the
formatted string `"<field> <op> <value> → <true|false>"`. -/
theorem evalCondition_expl_format (data : Record) (c : Condition) (m : Bool) (ex : String)
    (h : evalCondition data c = (m, ex, none)) : ex = explString c m := by
  unfold evalCondition at h
  cases hg : getValue data c.field with
  | none => simp [hg] at h
  | some v =>
    cases hop : defaultOps c.op with
    | none => simp [hg, hop] at h
    | some fn =>
      rcases hf : fn v c.value with ⟨mm, err⟩
      cases err with
      | some e => simp [hg, hop, hf] at h
      | none =>
        simp only [hg, hop, hf] at h
        have h1 : mm = m := congrArg Prod.fst h
        have h2 : explString c mm = ex := congrArg (fun p => p.2.1) h
        subst h1
        exact h2.symm

/-- Path resolution loop agrees with the spec-side `Resolves` relation. -/
theorem getValueAux_iff_resolves :
    ∀ (ps : List String) (cur v : Value),
      getValueAux ps cur = some v ↔ Resolves cur ps v := by
  intro ps
  induction ps with
  | nil =>
    intro cur v
    constructor
    · intro h
      obtain rfl : cur = v := Option.some.inj h
      exact Resolves.nil cur
    · intro h
      cases h
      rfl
  | cons p ps ih =>
    intro cur v
    constructor
    · intro h
      cases cur with
      | vMap m =>
        cases hg : mapGet m p with
        | none => simp [getValueAux, hg] at h
        | some w =>
          simp only [getValueAux, hg] at h
          exact Resolves.cons m p ps w v hg ((ih w v).mp h)
      | vNull => simp [getValueAux] at h
      | vBool b => simp [getValueAux] at h
      | vFloat64 x => simp [getValueAux] at h
      | vFloat32 x => simp [getValueAux] at h
      | vInt w n => simp [getValueAux] at h
      | vUint w n => simp [getValueAux] at h
      | vStr s => simp [getValueAux] at h
      | vList xs => simp [getValueAux] at h
    · intro h
      cases h with
      | cons m _ _ w _ hg hres =>
        simp only [getValueAux, hg]
        exact (ih w v).mpr hres

end Rules

namespace Rules

/-! ### Claim theorems -/

/-- C1: for a rule with logic AND (or unset logic), evaluation visits the
conditions in declared order; the first condition evaluating to false
short-circuits, returning matched=false with that condition's explanation
`"<field> <op> <value> → false"` without evaluating any later condition
(so a later condition that would error never surfaces its error); if every
condition matches, the result is matched=true with explanation
"all conditions met". -/
theorem and_short_circuits_in_order :
    (∀ (data : Record) (rule : Rule) (pre post : List Condition) (c : Condition) (ex : String),
      (rule.logic = "" ∨ rule.logic = "and") →
      rule.conditions = pre ++ c :: post →
      (∀ c' ∈ pre, ∃ ex', evalCondition data c' = (true, ex', none)) →
      evalCondition data c = (false, ex, none) →
      evaluate rule data = (⟨false, ex⟩, none)) ∧
    (∀ (data : Record) (rule : Rule),
      (rule.logic = "" ∨ rule.logic = "and") →
      rule.conditions ≠ [] →
      (∀ c' ∈ rule.conditions, ∃ ex', evalCondition data c' = (true, ex', none)) →
      evaluate rule data = (⟨true, "all conditions met"⟩, none)) ∧
    (∀ (data : Record) (c : Condition) (m : Bool) (ex : String),
      evalCondition data c = (m, ex, none) → ex = explString c m) := by
  refine ⟨?_, ?_, evalCondition_expl_format⟩
  · intro data rule pre post c ex hlogic hconds hpre hc
    have hne : rule.conditions ≠ [] := by simp [hconds]
    rw [evaluate_eq_evalAnd rule data hne hlogic, hconds,
      evalAnd_append_of_true data pre (c :: post) hpre]
    simp [evalAnd, hc]
  · intro data rule hlogic hne hall
    have h2 := evalAnd_append_of_true data rule.conditions [] hall
    rw [List.append_nil] at h2
    rw [evaluate_eq_evalAnd rule data hne hlogic, h2]
    rfl

/-- Witness for C1: an AND rule whose first condition is false and whose
second condition would error (missing field) returns matched=false with the
first condition's explanation and no error. -/
theorem and_short_circuits_in_order_witness :
    evaluate ⟨[⟨"age", "gt", Value.vInt .i 18⟩, ⟨"boom", "gt", Value.vInt .i 1⟩], ""⟩
      (some [("age", Value.vInt .i 17)]) = (⟨false, "age gt 18 → false"⟩, none) :=
  and_short_circuits_in_order.1
    (some [("age", Value.vInt .i 17)])
    ⟨[⟨"age", "gt", Value.vInt .i 18⟩, ⟨"boom", "gt", Value.vInt .i 1⟩], ""⟩
    [] [⟨"boom", "gt", Value.vInt .i 1⟩] ⟨"age", "gt", Value.vInt .i 18⟩
    "age gt 18 → false" (Or.inl rfl) rfl
    (by intro c' hc'; exact absurd hc' (List.not_mem_nil c'))
    (by decide)

/-- C2: for a rule with logic OR, evaluation visits the conditions in
declared order with the same per-condition resolution as AND; the first
condition evaluating to true short-circuits, returning matched=true with
that condition's explanation `"<field> <op> <value> → true"` without
evaluating any later condition; if no condition matches, the result is
matched=false with explanation "no conditions met". -/
theorem or_short_circuits_in_order :
    (∀ (data : Record) (rule : Rule) (pre post : List Condition) (c : Condition) (ex : String),
      rule.logic = "or" →
      rule.conditions = pre ++ c :: post →
      (∀ c' ∈ pre, ∃ ex', evalCondition data c' = (false, ex', none)) →
      evalCondition data c = (true, ex, none) →
      evaluate rule data = (⟨true, ex⟩, none)) ∧
    (∀ (data : Record) (rule : Rule),
      rule.logic = "or" →
      rule.conditions ≠ [] →
      (∀ c' ∈ rule.conditions, ∃ ex', evalCondition data c' = (false, ex', none)) →
      evaluate rule data = (⟨false, "no conditions met"⟩, none)) ∧
    (∀ (data : Record) (c : Condition) (m : Bool) (ex : String),
      evalCondition data c = (m, ex, none) → ex = explString c m) := by
  refine ⟨?_, ?_, evalCondition_expl_format⟩
  · intro data rule pre post c ex hlogic hconds hpre hc
    have hne : rule.conditions ≠ [] := by simp [hconds]
    rw [evaluate_eq_evalOr rule data hne (by simp [hlogic]) (by simp [hlogic]), hconds,
      evalOr_append_of_false data pre (c :: post) hpre]
    simp [evalOr, hc]
  · intro data rule hlogic hne hall
    have h2 := evalOr_append_of_false data rule.conditions [] hall
    rw [List.append_nil] at h2
    rw [evaluate_eq_evalOr rule data hne (by simp [hlogic]) (by simp [hlogic]), h2]
    rfl

/-- Witness for C2: an OR rule whose first condition is false, second
condition is true and third condition would error (missing field) returns
matched=true with the second condition's explanation and no error. -/
theorem or_short_circuits_in_order_witness :
    evaluate ⟨[⟨"score", "gt", Value.vInt .i 200⟩, ⟨"score", "gt", Value.vInt .i 100⟩,
        ⟨"boom", "gt", Value.vInt .i 1⟩], "or"⟩
      (some [("score", Value.vInt .i 150)]) = (⟨true, "score gt 100 → true"⟩, none) :=
  or_short_circuits_in_order.1
    (some [("score", Value.vInt .i 150)])
    ⟨[⟨"score", "gt", Value.vInt .i 200⟩, ⟨"score", "gt", Value.vInt .i 100⟩,
        ⟨"boom", "gt", Value.vInt .i 1⟩], "or"⟩
    [⟨"score", "gt", Value.vInt .i 200⟩] [⟨"boom", "gt", Value.vInt .i 1⟩]
    ⟨"score", "gt", Value.vInt .i 100⟩
    "score gt 100 → true" rfl rfl
    (by
      intro c' hc'
      rw [List.mem_singleton] at hc'
      subst hc'
      exact ⟨"score gt 200 → false", by decide⟩)
    (by decide)

/-- C3: any per-condition failure (field resolution naming the field,
operator lookup naming the operator, or a comparator error) aborts the whole
evaluation with that error, for both logic modes; an error is never turned
into a matched=false result, and the Result returned alongside an error is
always the zero Result. -/
theorem errors_abort_evaluation :
    (∀ (rule : Rule) (data : Record) (e : String),
      (evaluate rule data).2 = some e → (evaluate rule data).1 = ⟨false, ""⟩) ∧
    (∀ (data : Record) (rule : Rule) (pre post : List Condition) (c : Condition)
        (m : Bool) (x e : String),
      (rule.logic = "" ∨ rule.logic = "and") →
      rule.conditions = pre ++ c :: post →
      (∀ c' ∈ pre, ∃ ex', evalCondition data c' = (true, ex', none)) →
      evalCondition data c = (m, x, some e) →
      evaluate rule data = (⟨false, ""⟩, some e)) ∧
    (∀ (data : Record) (rule : Rule) (pre post : List Condition) (c : Condition)
        (m : Bool) (x e : String),
      rule.logic ≠ "" → rule.logic ≠ "and" →
      rule.conditions = pre ++ c :: post →
      (∀ c' ∈ pre, ∃ ex', evalCondition data c' = (false, ex', none)) →
      evalCondition data c = (m, x, some e) →
      evaluate rule data = (⟨false, ""⟩, some e)) ∧
    (∀ (data : Record) (c : Condition),
      (getValue data c.field = none →
        evalCondition data c =
          (false, "", some ("field \"" ++ c.field ++ "\" not found: field not found"))) ∧
      (∀ v, getValue data c.field = some v → defaultOps c.op = none →
        evalCondition data c = (false, "", some ("unknown operator \"" ++ c.op ++ "\""))) ∧
      (∀ v fn e, getValue data c.field = some v → defaultOps c.op = some fn →
        (fn v c.value).2 = some e →
        evalCondition data c = (false, "", some e))) := by
  refine ⟨?_, ?_, ?_, ?_⟩
  · intro rule data e h
    rcases hc : rule.conditions with _ | ⟨c0, cs0⟩
    · have hz : evaluate rule data = (⟨true, ""⟩, none) := by simp [evaluate, hc]
      rw [hz] at h
      simp at h
    · have hne : rule.conditions ≠ [] := by simp [hc]
      by_cases hl : rule.logic = "" ∨ rule.logic = "and"
      · rw [evaluate_eq_evalAnd rule data hne hl] at h ⊢
        exact evalAnd_error_zero data rule.conditions e h
      · push_neg at hl
        rw [evaluate_eq_evalOr rule data hne hl.1 hl.2] at h ⊢
        exact evalOr_error_zero data rule.conditions e h
  · intro data rule pre post c m x e hlogic hconds hpre hc
    have hne : rule.conditions ≠ [] := by simp [hconds]
    rw [evaluate_eq_evalAnd rule data hne hlogic, hconds,
      evalAnd_append_of_true data pre (c :: post) hpre]
    simp [evalAnd, hc]
  · intro data rule pre post c m x e hl1 hl2 hconds hpre hc
    have hne : rule.conditions ≠ [] := by simp [hconds]
    rw [evaluate_eq_evalOr rule data hne hl1 hl2, hconds,
      evalOr_append_of_false data pre (c :: post) hpre]
    simp [evalOr, hc]
  · intro data c
    refine ⟨?_, ?_, ?_⟩
    · intro hg
      simp [evalCondition, hg]
    · intro v hg hop
      simp [evalCondition, hg, hop]
    · intro v fn e hg hop hf
      rcases hf2 : fn v c.value with ⟨mm, err⟩
      rw [hf2] at hf
      simp only at hf
      subst hf
      simp [evalCondition, hg, hop, hf2]

/-- Witness for C3: an AND rule whose only condition applies an ordering
comparator to a boolean aborts with the comparator's type-mismatch error and
the zero Result. -/
theorem errors_abort_evaluation_witness :
    evaluate ⟨[⟨"premium", "gt", Value.vBool true⟩], ""⟩
      (some [("premium", Value.vBool true)]) = (⟨false, ""⟩, some "type mismatch for >") :=
  errors_abort_evaluation.2.1
    (some [("premium", Value.vBool true)])
    ⟨[⟨"premium", "gt", Value.vBool true⟩], ""⟩
    [] [] ⟨"premium", "gt", Value.vBool true⟩
    false "" "type mismatch for >" (Or.inl rfl) rfl
    (by intro c' hc'; exact absurd hc' (List.not_mem_nil c'))
    (by decide)

end Rules

namespace Rules

/-- C4: `equal` is true exactly when the operands are deeply structurally
equal or, failing that, both coerce to a numeric representation with equal
numeric forms — so eq(100, 100.0) and eq("100", 100) are true while
eq("abc", 100) is false — the `ne` operator is the negation of `eq`, and
neither ever returns an error. -/
theorem eq_structural_or_numeric :
    (∀ a b : Value, equal a b = true ↔
      (deepEqual a b = true ∨
        ∃ fa fb : Rat, toFloat a = some fa ∧ toFloat b = some fb ∧ fa = fb)) ∧
    (∀ a b : Value, opNe a b = ((!(opEq a b).1), none) ∧ opEq a b = (equal a b, none)) ∧
    equal (Value.vInt .i 100) (Value.vFloat64 100) = true ∧
    equal (Value.vStr "100") (Value.vInt .i 100) = true ∧
    equal (Value.vStr "abc") (Value.vInt .i 100) = false := by
  refine ⟨?_, fun a b => ⟨rfl, rfl⟩, ?_, ?_, ?_⟩
  · intro a b
    unfold equal
    cases hd : deepEqual a b with
    | true => simp
    | false =>
      cases hfa : toFloat a with
      | none => simp [hfa]
      | some fa =>
        cases hfb : toFloat b with
        | none => simp [hfb]
        | some fb => simp [hfa, hfb]
  · have hd : deepEqual (Value.vInt .i 100) (Value.vFloat64 100) = false := by
      simp [deepEqual]
    simp [equal, hd, toFloat]
  · have hp : parseFloat "100" = some 100 := by
      simp +decide [parseFloat, takeDigits, digitsVal]
    have hd : deepEqual (Value.vStr "100") (Value.vInt .i 100) = false := by
      simp [deepEqual]
    simp [equal, hd, toFloat, hp]
  · have hd : deepEqual (Value.vStr "abc") (Value.vInt .i 100) = false := by
      simp [deepEqual]
    have hp : parseFloat "abc" = none := by rfl
    simp [equal, hd, toFloat, hp]

/-- C5: the ordering comparators gt, gte, lt, lte perform the numeric
comparison of the coerced operands whenever both coerce (numeric values of
any width, or decimal-parseable strings), and fail with a type-mismatch
error naming the operator — never a silent false — whenever either operand
does not coerce; the coercion rejects booleans, null, slices, maps and
non-numeric strings. -/
theorem ordering_comparators_numeric :
    (∀ (a b : Value) (fa fb : Rat), toFloat a = some fa → toFloat b = some fb →
      greater a b = (decide (fa > fb), none) ∧
      greaterOrEqual a b = (decide (fa ≥ fb), none) ∧
      less a b = (decide (fa < fb), none) ∧
      lessOrEqual a b = (decide (fa ≤ fb), none)) ∧
    (∀ a b : Value, toFloat a = none ∨ toFloat b = none →
      greater a b = (false, some "type mismatch for >") ∧
      greaterOrEqual a b = (false, some "type mismatch for >=") ∧
      less a b = (false, some "type mismatch for <") ∧
      lessOrEqual a b = (false, some "type mismatch for <=")) ∧
    (∀ b, toFloat (Value.vBool b) = none) ∧
    toFloat Value.vNull = none ∧
    (∀ xs, toFloat (Value.vList xs) = none) ∧
    (∀ m, toFloat (Value.vMap m) = none) ∧
    (∀ w n, toFloat (Value.vInt w n) = some (n : Rat)) ∧
    (∀ w n, toFloat (Value.vUint w n) = some (n : Rat)) ∧
    (∀ x, toFloat (Value.vFloat64 x) = some x) ∧
    (∀ x, toFloat (Value.vFloat32 x) = some x) ∧
    (∀ s, toFloat (Value.vStr s) = parseFloat s) ∧
    toFloat (Value.vStr "4.5") = some (9/2 : Rat) ∧
    toFloat (Value.vStr "abc") = none := by
  refine ⟨?_, ?_, fun b => rfl, rfl, fun xs => rfl, fun m => rfl, fun w n => rfl,
    fun w n => rfl, fun x => rfl, fun x => rfl, fun s => rfl, ?_, rfl⟩
  · intro a b fa fb ha hb
    refine ⟨?_, ?_, ?_, ?_⟩ <;>
      simp [greater, greaterOrEqual, less, lessOrEqual, ha, hb]
  · intro a b h
    rcases h with h | h
    · cases hb : toFloat b <;>
        exact ⟨by simp [greater, h, hb], by simp [greaterOrEqual, h, hb],
          by simp [less, h, hb], by simp [lessOrEqual, h, hb]⟩
    · cases ha : toFloat a <;>
        exact ⟨by simp [greater, h, ha], by simp [greaterOrEqual, h, ha],
          by simp [less, h, ha], by simp [lessOrEqual, h, ha]⟩
  · show toFloat (Value.vStr "4.5") = some (9/2 : Rat)
    simp +decide [toFloat, parseFloat, takeDigits, digitsVal]
    norm_num

/-- Witness for C5: gt on two coercible operands returns the numeric
comparison without error, and lt on a boolean operand fails with the
type-mismatch error naming lt. -/
theorem ordering_comparators_numeric_witness :
    greater (Value.vInt .i 150) (Value.vInt .i 100) = (true, none) ∧
    less (Value.vBool true) (Value.vInt .i 1) = (false, some "type mismatch for <") := by
  constructor
  · have h := (ordering_comparators_numeric.1 (Value.vInt .i 150) (Value.vInt .i 100)
      150 100 (by norm_num [toFloat]) (by norm_num [toFloat])).1
    rw [h]
    norm_num
  · exact (ordering_comparators_numeric.2.1 (Value.vBool true) (Value.vInt .i 1)
      (Or.inl rfl)).2.2.1

end Rules

namespace Rules

/-- C6: `getValue` returns the terminal value exactly when every dot-path
segment resolves to an existing key of a nested string-keyed mapping
(the spec-side `Resolves` relation); a nil record always yields not-found,
and any missing key or non-mapping intermediate yields not-found. -/
theorem getValue_resolves_paths :
    (∀ path : String, getValue none path = none) ∧
    (∀ (m : List (String × Value)) (path : String) (v : Value),
      getValue (some m) path = some v ↔ Resolves (Value.vMap m) (splitDot path) v) := by
  refine ⟨fun path => rfl, ?_⟩
  intro m path v
  exact getValueAux_iff_resolves (splitDot path) (Value.vMap m) v

/-- Witness for C6: a two-segment path resolved through a nested map, via
the spec-side resolution relation. -/
theorem getValue_resolves_paths_witness :
    getValue (some [("user", Value.vMap [("role", Value.vStr "admin")])]) "user.role"
      = some (Value.vStr "admin") :=
  (getValue_resolves_paths.2 [("user", Value.vMap [("role", Value.vStr "admin")])]
    "user.role" (Value.vStr "admin")).mpr
    (Resolves.cons _ "user" ["role"] (Value.vMap [("role", Value.vStr "admin")])
      (Value.vStr "admin") rfl
      (Resolves.cons _ "role" [] (Value.vStr "admin") (Value.vStr "admin") rfl
        (Resolves.nil _)))

/-- C7: a rule with an empty condition list evaluates to matched=true with
no explanation and no error, for any record and any logic value. -/
theorem empty_conditions_match (rule : Rule) (data : Record)
    (h : rule.conditions = []) :
    evaluate rule data = (⟨true, ""⟩, none) := by
  simp [evaluate, h]

/-- Witness for C7: an empty rule with a non-default logic value matches a
nil record with no explanation. -/
theorem empty_conditions_match_witness :
    evaluate ⟨[], "or"⟩ none = (⟨true, ""⟩, none) :=
  empty_conditions_match ⟨[], "or"⟩ none rfl

/-- C10: for a non-empty rule, exactly the logic values "" and "and" give
AND semantics; every other logic value — "AND", "Or", or any unrecognized
string — gives OR semantics. -/
theorem logic_defaulting_exact (rule : Rule) (data : Record)
    (h : rule.conditions ≠ []) :
    ((rule.logic = "" ∨ rule.logic = "and") →
      evaluate rule data = evalAnd data rule.conditions) ∧
    (rule.logic ≠ "" → rule.logic ≠ "and" →
      evaluate rule data = evalOr data rule.conditions) :=
  ⟨fun h2 => evaluate_eq_evalAnd rule data h h2,
   fun h2 h3 => evaluate_eq_evalOr rule data h h2 h3⟩

/-- Witness for C10: the unrecognized logic value "AND" (uppercase) runs the
OR loop: a rule whose single condition is false under OR semantics reports
"no conditions met" instead of short-circuiting as AND would. -/
theorem logic_defaulting_exact_witness :
    evaluate ⟨[⟨"age", "gt", Value.vInt .i 18⟩], "AND"⟩ (some [("age", Value.vInt .i 17)])
      = (⟨false, "no conditions met"⟩, none) := by
  have h := (logic_defaulting_exact ⟨[⟨"age", "gt", Value.vInt .i 18⟩], "AND"⟩
    (some [("age", Value.vInt .i 17)]) (List.cons_ne_nil _ _)).2
    (by decide) (by decide)
  rw [h]
  decide

end Rules

namespace Rules

/-- A character list starts with the pattern exactly when it splits as the
pattern followed by a remainder. -/
theorem leadsWith_iff (pat : List Char) :
    ∀ s, leadsWith pat s = true ↔ ∃ r, s = pat ++ r := by
  induction pat with
  | nil =>
    intro s
    constructor
    · intro _; exact ⟨s, rfl⟩
    · intro _; rfl
  | cons a as ih =>
    intro s
    cases s with
    | nil =>
      constructor
      · intro h; exact absurd h (by simp [leadsWith])
      · rintro ⟨r, hr⟩; exact absurd hr (by simp)
    | cons b bs =>
      constructor
      · intro h
        rw [leadsWith, Bool.and_eq_true, beq_iff_eq] at h
        obtain ⟨rfl, h2⟩ := h
        obtain ⟨r, rfl⟩ := (ih bs).mp h2
        exact ⟨r, rfl⟩
      · rintro ⟨r, hr⟩
        obtain ⟨rfl, rfl⟩ : b = a ∧ bs = as ++ r := by simpa using hr
        rw [leadsWith, Bool.and_eq_true, beq_iff_eq]
        exact ⟨rfl, (ih (as ++ r)).mpr ⟨r, rfl⟩⟩

/-- The pattern occurs contiguously in a character list exactly when the
list splits as some left part, the pattern, and some right part. -/
theorem occursIn_iff (pat : List Char) :
    ∀ s, occursIn pat s = true ↔ ∃ l r, s = l ++ pat ++ r := by
  intro s
  induction s with
  | nil =>
    simp only [occursIn, leadsWith_iff]
    constructor
    · rintro ⟨r, hr⟩
      exact ⟨[], r, hr⟩
    · rintro ⟨l, r, hr⟩
      have h2 := hr.symm
      simp only [List.append_eq_nil] at h2
      exact ⟨[], by simp [h2.1.2]⟩
  | cons c cs ih =>
    simp only [occursIn, Bool.or_eq_true, ih, leadsWith_iff]
    constructor
    · rintro (⟨r, hr⟩ | ⟨l, r, hr⟩)
      · exact ⟨[], r, hr⟩
      · exact ⟨c :: l, r, by rw [hr]; rfl⟩
    · rintro ⟨l, r, hr⟩
      cases l with
      | nil => exact Or.inl ⟨r, by simpa using hr⟩
      | cons x l' =>
        have h2 : c = x ∧ cs = l' ++ pat ++ r := by simpa using hr
        exact Or.inr ⟨l', r, h2.2⟩

/-- The early-return membership loop equals `List.any` of `equal`. -/
theorem inList_eq_any (a : Value) :
    ∀ xs : List Value, inList a xs = xs.any (fun x => equal a x) := by
  intro xs
  induction xs with
  | nil => rfl
  | cons x xs ih =>
    cases h : equal a x <;> simp [inList, h, ih]

/-- C8 counterexample: on a non-slice right operand the error message the
code produces is "in requires slice value", not the claimed
"in requires a sequence value". -/
theorem in_error_message_counterexample :
    inOp (Value.vStr "x") (Value.vStr "not-a-sequence")
      = (false, some "in requires slice value") ∧
    "in requires slice value" ≠ "in requires a sequence value" :=
  ⟨rfl, by decide⟩

/-- C8 (amended): `in` fails with a type-mismatch error whose message is
"in requires slice value" whenever the right operand is not a slice, and
otherwise returns, without error, true exactly when some element of the
slice is `equal` to the left operand. -/
theorem in_membership_amended :
    (∀ a b : Value, (∀ xs, b ≠ Value.vList xs) →
      inOp a b = (false, some "in requires slice value")) ∧
    (∀ (a : Value) (xs : List Value),
      inOp a (Value.vList xs) = (xs.any (fun x => equal a x), none)) ∧
    (∀ (a : Value) (xs : List Value),
      (inOp a (Value.vList xs)).1 = true ↔ ∃ x ∈ xs, equal a x = true) := by
  refine ⟨?_, ?_, ?_⟩
  · intro a b h
    cases b with
    | vList xs => exact absurd rfl (h xs)
    | vNull => rfl
    | vBool b => rfl
    | vFloat64 x => rfl
    | vFloat32 x => rfl
    | vInt w n => rfl
    | vUint w n => rfl
    | vStr s => rfl
    | vMap m => rfl
  · intro a xs
    simp [inOp, inList_eq_any]
  · intro a xs
    simp [inOp, inList_eq_any, List.any_eq_true]

/-- Witness for the amended C8: a string right operand is rejected with the
code's type-mismatch message. -/
theorem in_membership_amended_witness :
    inOp (Value.vBool true) (Value.vStr "not-a-sequence")
      = (false, some "in requires slice value") :=
  in_membership_amended.1 (Value.vBool true) (Value.vStr "not-a-sequence")
    (fun _ h => Value.noConfusion h)

/-- C9: `contains` on two strings returns, without error, whether the second
occurs as a contiguous substring of the first, and fails with a
type-mismatch error — not a false match — whenever either operand is not a
string, e.g. contains(42, "4"). -/
theorem contains_substring_typed :
    (∀ s t : String,
      contains (Value.vStr s) (Value.vStr t) = (occursIn t.toList s.toList, none) ∧
      (occursIn t.toList s.toList = true ↔ ∃ l r, s.toList = l ++ t.toList ++ r)) ∧
    (∀ a b : Value, ((∀ s, a ≠ Value.vStr s) ∨ (∀ t, b ≠ Value.vStr t)) →
      contains a b = (false, some "type mismatch for contains")) ∧
    contains (Value.vInt .i 42) (Value.vStr "4")
      = (false, some "type mismatch for contains") := by
  refine ⟨?_, ?_, rfl⟩
  · intro s t
    exact ⟨rfl, occursIn_iff t.toList s.toList⟩
  · intro a b h
    cases a <;> cases b <;> try rfl
    rcases h with h | h
    · exact absurd rfl (h _)
    · exact absurd rfl (h _)

/-- Witness for C9: a non-string right operand is rejected with the
type-mismatch error. -/
theorem contains_substring_typed_witness :
    contains (Value.vStr "x") (Value.vInt .i 1)
      = (false, some "type mismatch for contains") :=
  contains_substring_typed.2.1 (Value.vStr "x") (Value.vInt .i 1)
    (Or.inr (fun _ h => Value.noConfusion h))

end Rules
